import Mathlib

/-!
# Verification of the keep-core DKG engine against its specification

The repository implements a Pedersen/GJKR-style distributed key generation
protocol.  The source tree carries the member-state declarations
(`pkg/beacon/relay/gjkr/member.go`), the relay node entry points
(`pkg/beacon/relay/relay.go`) and the protocol tests
(`pkg/beacon/relay/dkg_new/protocol_test.go`); the Pedersen VSS arithmetic and
the phase bodies live outside the tree and are modelled here from the
specification, faithfully to its formulas.  Group elements of the
multiplicative subgroup of ℤ_p are represented as `ZMod p`, exponents and
member indices as `ℕ`, and Go pointer values (`*big.Int`) as explicit
address/value pairs with a `GoResult` type recording run-time faults.
-/

namespace KeepCore

/-! ## Pedersen VSS -/

/-- Horner evaluation of a polynomial with natural coefficients:
`evalPoly [c0, c1, ..., cT] x = c0 + c1*x + ... + cT*x^T`. -/
def evalPoly (coeffs : List ℕ) (x : ℕ) : ℕ :=
  coeffs.foldr (fun c acc => c + x * acc) 0

/-- Modelled from the spec: `evaluate(coefA, coefB, j) → (s,t)` of the
`pedersen` package (not under `src/`) "returns (f(j) mod q, g(j) mod q)".
This is the evaluation of one of the two polynomials, reduced mod q. -/
def evaluateShare (q : ℕ) (coeffs : List ℕ) (j : ℕ) : ℕ :=
  evalPoly coeffs j % q

/-- Modelled from the spec: `commit(coefA[0..T], coefB[0..T]) → C[0..T]` of the
`pedersen` package (not under `src/`) "computes C_k = g^{a_k}·h^{b_k} mod p". -/
def commit {p : ℕ} (g h : ZMod p) (coefA coefB : List ℕ) : List (ZMod p) :=
  List.zipWith (fun a b => g ^ a * h ^ b) coefA coefB

/-- Horner-style accumulation of `∏_k C_k^{j^k} mod p`, as the spec prescribes
("modular exponentiations reused via Horner-style accumulation of j^k"). -/
def prodPow {p : ℕ} : List (ZMod p) → ℕ → ZMod p
  | [], _ => 1
  | c :: cs, j => c * (prodPow cs j) ^ j

/-- Modelled from the spec: `verifyShare(j, s, t, C[0..T]) → bool` of the
`pedersen` package (not under `src/`) "checks g^s · h^t ≡ ∏_k C_k^{j^k} (mod p)". -/
def verifyShare {p : ℕ} (g h : ZMod p) (j s t : ℕ) (C : List (ZMod p)) : Bool :=
  decide (g ^ s * h ^ t = prodPow C j)

/-! ## Phase 3: commitments and encrypted shares -/

/-- One outgoing peer share message of phase 3, holding the evaluations
(s_ij, t_ij) addressed to member j.  Encryption under the symmetric key is
out of scope of the verified claims. -/
structure PeerShareOut where
  receiverID : ℕ
  shareS : ℕ
  shareT : ℕ
deriving DecidableEq

/-- Modelled from the spec: the phase-3 body behind
`CalculateMembersSharesAndCommitments` (exercised by
`TestCalculateSharesAndCommitments`; its implementation is not under `src/`).
"Member i picks (a_{i,0..T}, b_{i,0..T}) ... computes commitment vector C_i
... and evaluates shares (s_ij, t_ij) for every j. It broadcasts C_i to all,
and sends to each j" a peer share message.  The random coefficient vectors
are taken as inputs. -/
def calculateMembersSharesAndCommitments {p : ℕ} (g h : ZMod p) (q : ℕ)
    (memberIDs : List ℕ) (i : ℕ) (coefA coefB : List ℕ) :
    List PeerShareOut × List (ZMod p) :=
  ((memberIDs.filter (fun j => j ≠ i)).map
      (fun j => ⟨j, evaluateShare q coefA j, evaluateShare q coefB j⟩),
   commit g h coefA coefB)

/-! ## Phase 4: verification of received shares and commitments -/

/-- A received phase-3 share packet after the authenticated decryption
attempt: `none` models a packet that failed to decrypt. -/
structure PeerSharesMessage where
  senderID : ℕ
  receiverID : ℕ
  decryptedShares : Option (ℕ × ℕ)
deriving DecidableEq

/-- A received phase-3 commitments broadcast. -/
structure MemberCommitmentsMessage (p : ℕ) where
  senderID : ℕ
  commitments : List (ZMod p)

/-- The commitment vector broadcast by member j, when one was received. -/
def lookupCommitments {p : ℕ} (msgs : List (MemberCommitmentsMessage p))
    (j : ℕ) : Option (List (ZMod p)) :=
  (msgs.find? (fun m => m.senderID == j)).map (fun m => m.commitments)

/-- Whether the packet from `msg.senderID` decrypts and verifies against that
sender's commitments. -/
def sharePasses {p : ℕ} (g h : ZMod p) (myID : ℕ)
    (comms : List (MemberCommitmentsMessage p)) (msg : PeerSharesMessage) : Bool :=
  match msg.decryptedShares, lookupCommitments comms msg.senderID with
  | some (s, t), some C => verifyShare g h myID s t C
  | _, _ => false

/-- The ledger entry (j, s_ji, t_ji) recorded for a passing packet. -/
def recordOf {p : ℕ} (g h : ZMod p) (myID : ℕ)
    (comms : List (MemberCommitmentsMessage p)) (msg : PeerSharesMessage) :
    Option (ℕ × ℕ × ℕ) :=
  match msg.decryptedShares, lookupCommitments comms msg.senderID with
  | some (s, t), some C =>
    if verifyShare g h myID s t C then some (msg.senderID, s, t) else none
  | _, _ => none

/-- Processing of one received share packet in phase 4: a packet that
decrypts and verifies extends the ledger; any other packet extends the
accusation list with its sender. -/
def phase4Step {p : ℕ} (g h : ZMod p) (myID : ℕ)
    (comms : List (MemberCommitmentsMessage p)) (msg : PeerSharesMessage)
    (acc : List (ℕ × ℕ × ℕ) × List ℕ) : List (ℕ × ℕ × ℕ) × List ℕ :=
  match msg.decryptedShares, lookupCommitments comms msg.senderID with
  | some (s, t), some C =>
    if verifyShare g h myID s t C then ((msg.senderID, s, t) :: acc.1, acc.2)
    else (acc.1, msg.senderID :: acc.2)
  | _, _ => (acc.1, msg.senderID :: acc.2)

/-- Modelled from the spec: the phase-4 body behind
`VerifyReceivedSharesAndCommitmentsMessages` (exercised by
`TestSharesAndCommitmentsCalculationAndVerification`; its implementation is
not under `src/`).  "Member i decrypts each received packet from j and
invokes C4.verifyShare(i, s_ji, t_ji, C_j).  Outcomes per peer:
(a) decrypt + verify OK → record (s_ji, t_ji); (b) decrypt fail or verify
fail → broadcast an accusation naming j."  Returns the ledger of recorded
shares and the list of accused member IDs. -/
def verifyReceivedSharesAndCommitments {p : ℕ} (g h : ZMod p) (myID : ℕ)
    (shares : List PeerSharesMessage) (comms : List (MemberCommitmentsMessage p)) :
    List (ℕ × ℕ × ℕ) × List ℕ :=
  shares.foldr (phase4Step g h myID comms) ([], [])

/-! ## Phase 5: accusation adjudication -/

/-- An accusation: the accuser claims the share it received from the accused
decrypts or opens inconsistently with the commitments. -/
structure Accusation where
  accuser : ℕ
  accused : ℕ
deriving DecidableEq

/-- Modelled from the spec (phase 5): "If the revealed share is consistent,
the ACCUSER is disqualified (false accusation); otherwise the ACCUSED is
disqualified.  If the accused does not respond by the deadline, the accused
is disqualified."  `justified a` decides whether the accused's mandatory
revelation checks out (an absent response counts as not justified); the
result is the member the adjudication disqualifies. -/
def adjudicateAccusation (justified : Accusation → Bool) (a : Accusation) : ℕ :=
  if justified a then a.accuser else a.accused

/-- The set of members disqualified by adjudicating a message log of
accusations ("set-oriented accumulation" per the spec). -/
def disqualifiedByAdjudication (justified : Accusation → Bool)
    (log : List Accusation) : Finset ℕ :=
  (log.map (adjudicateAccusation justified)).toFinset

/-- Modelled from the spec: Q_final derived from one member's view of the
accusation log, `{1..N}` minus every member the adjudication disqualifies. -/
def finalQualifiedSet (N : ℕ) (justified : Accusation → Bool)
    (log : List Accusation) : Finset ℕ :=
  Finset.Icc 1 N \ disqualifiedByAdjudication justified log

/-! ## Phase 6: qualification -/

/-- Terminal outcome tags of the DKG state machine. -/
inductive AbortReason where
  | insufficientQualifiedMembers
  | cancelled
deriving DecidableEq

/-- Result of the qualification barrier: continue with the qualified set, or
abort. -/
inductive PhaseOutcome where
  | continued (qualified : Finset ℕ)
  | aborted (reason : AbortReason)
deriving DecidableEq

/-- Modelled from the spec (phase 6): "Compute Q = {1..N} minus all members
disqualified in phases 2–5." -/
def computeQualifiedSet (N : ℕ) (disqualified : Finset ℕ) : Finset ℕ :=
  Finset.Icc 1 N \ disqualified

/-- Modelled from the spec (phase 6): "If |Q| < T+1, transition to `Aborted`
with InsufficientQualifiedMembers"; otherwise the run continues with Q. -/
def qualifyPhase (N T : ℕ) (disqualified : Finset ℕ) : PhaseOutcome :=
  if (computeQualifiedSet N disqualified).card < T + 1 then
    .aborted .insufficientQualifiedMembers
  else
    .continued (computeQualifiedSet N disqualified)

/-! ## Phase 11: reconstruction of disqualified members -/

/-- Modelled from the spec (phase 11): Lagrange coefficient
λ_k = ∏_{k' ≠ k} k' / (k' − k) mod q, the product ranging over the member
indices of the revealed shares. -/
def lagrangeCoefficient (q : ℕ) (ids : List ℕ) (k : ℕ) : ZMod q :=
  ((ids.filter (fun j => j ≠ k)).map
    (fun j : ℕ => (j : ZMod q) * ((j : ZMod q) - (k : ZMod q))⁻¹)).prod

/-- Modelled from the spec (phase 11): z_m = ∑ λ_k · s_mk mod q over the
revealed shares (k, s_mk). -/
def reconstructIndividualPrivateKey (q : ℕ) (shares : List (ℕ × ℕ)) : ZMod q :=
  (shares.map
    (fun ks => lagrangeCoefficient q (shares.map Prod.fst) ks.1 * (ks.2 : ZMod q))).sum

/-- Modelled from the spec (phase 11): y_m = g^{z_m} mod p. -/
def reconstructIndividualPublicKey {p : ℕ} (g : ZMod p) {q : ℕ} (z : ZMod q) :
    ZMod p :=
  g ^ z.val

/-- The dealer's polynomial over ℤ_q built by Horner from its coefficient
list; relates the reconstruction formula to Lagrange interpolation. -/
noncomputable def hornerPoly {q : ℕ} (coeffs : List (ZMod q)) : Polynomial (ZMod q) :=
  coeffs.foldr (fun c acc => Polynomial.C c + Polynomial.X * acc) 0

/-! ## Phase 12: combining -/

/-- State feeding a `CombiningMember` (the struct is declared in
gjkr/member.go lines 179–189; the combining computation is not under `src/`):
the member's own A_{i,0}, the validated peer individual public keys A_{j,0}
for the remaining j ∈ Q', and the reconstructed individual public keys y_m. -/
structure CombiningMemberState (p : ℕ) where
  individualPublicKey : ZMod p
  receivedValidPeerIndividualPublicKeys : List (ZMod p)
  reconstructedIndividualPublicKeys : List (ZMod p)

/-- Modelled from the spec (phase 12): "Group public key
Y = (∏_{i∈Q'} A_{i,0}) · (∏_{m reconstructed} y_m) mod p", accumulated one
factor at a time starting from the member's own A_{i,0}. -/
def combineGroupPublicKey {p : ℕ} (m : CombiningMemberState p) : ZMod p :=
  m.reconstructedIndividualPublicKeys.foldl (· * ·)
    (m.receivedValidPeerIndividualPublicKeys.foldl (· * ·) m.individualPublicKey)

/-- Modelled from the spec (phase 12): "Member i's final private share is
x_i = ∑_{j ∈ Q} s_ji mod q", accumulated share by share with the running
value kept reduced mod q. -/
def memberFinalPrivateShare (q : ℕ) (receivedSharesS : List ℕ) : ℕ :=
  receivedSharesS.foldl (fun acc s => (acc + s) % q) 0

/-! ## Go run-time embedding for relay.go and member.go -/

/-- Result of evaluating an embedded Go computation: a value, or a run-time
fault (a Go panic such as a nil-pointer dereference or an out-of-range
index). -/
inductive GoResult (α : Type) where
  | ok (val : α)
  | fault (msg : String)
deriving DecidableEq

/-- Big-endian unsigned interpretation of a byte slice, as performed by
`(*big.Int).SetBytes`. -/
def bytesToNat (bytes : List ℕ) : ℕ :=
  bytes.foldl (fun acc b => acc * 256 + b % 256) 0

/-- The Go call `receiver.SetBytes(bytes)` on a `*big.Int` that may be nil:
the method writes through the receiver, so a nil receiver faults. -/
def bigIntSetBytes (receiver : Option ℤ) (bytes : List ℕ) : GoResult ℤ :=
  match receiver with
  | none => .fault "nil pointer dereference"
  | some _ => .ok (Int.ofNat (bytesToNat bytes))

/-- The Go call `receiver.Mod(x, m)` on a `*big.Int` that may be nil;
`big.Int.Mod` is the Euclidean modulus. -/
def bigIntMod (receiver : Option ℤ) (x m : ℤ) : GoResult ℤ :=
  match receiver with
  | none => .fault "nil pointer dereference"
  | some _ => .ok (x % m)

/-- The fields of `event.Request` used by relay.go. -/
structure Request where
  previousEntry : List ℕ

/-- The fields of `relay.Node` used by `indexForNextGroup`. -/
structure Node where
  groupPublicKeys : List (List ℕ)

/-- Embeds `indexForNextGroup` (relay.go lines 109–122): `var entry,
nextGroup *big.Int` declares nil pointers; the code then calls
`entry.SetBytes(request.PreviousEntry())` on the nil `entry`, returns the nil
`nextGroup` when no group public keys are known, and otherwise calls
`nextGroup.Mod(entry, numberOfGroups)` on the nil `nextGroup`. -/
def indexForNextGroup (n : Node) (request : Request) : GoResult (Option ℤ) :=
  let entry : Option ℤ := none
  let nextGroup : Option ℤ := none
  match bigIntSetBytes entry request.previousEntry with
  | .fault msg => .fault msg
  | .ok entryVal =>
    let numberOfGroups : ℤ := n.groupPublicKeys.length
    if numberOfGroups = 0 then
      .ok nextGroup
    else
      match bigIntMod nextGroup entryVal numberOfGroups with
      | .fault msg => .fault msg
      | .ok v => .ok (some v)

/-- Embeds the previous-entry conversion on the background path of
`GenerateRelayEntryIfEligible` (relay.go lines 71–78): `var previousEntry
*big.Int` followed by `previousEntry.SetBytes(request.PreviousEntry())` on
the nil pointer. -/
def generateRelayEntryPreviousEntry (request : Request) : GoResult ℤ :=
  let previousEntry : Option ℤ := none
  bigIntSetBytes previousEntry request.previousEntry

/-- The fields of `gjkr.ReconstructingMember` (member.go lines 159–177)
reachable through its embedded layers that the verified operations touch:
the `publicKeySharePoints` slice of the embedded `SharingMember`, and the two
reconstruction maps, modelled as association lists. -/
structure ReconstructingMember where
  publicKeySharePoints : List ℤ
  reconstructedIndividualPrivateKeys : List (ℕ × ℤ)
  reconstructedIndividualPublicKeys : List (ℕ × ℤ)

/-- Embeds `individualPublicKey` (member.go lines 131–133):
`return rm.publicKeySharePoints[0]`; indexing an empty Go slice faults. -/
def individualPublicKey (rm : ReconstructingMember) : GoResult ℤ :=
  match rm.publicKeySharePoints with
  | [] => .fault "index out of range"
  | x :: _ => .ok x

/-! ## Go embedding for protocol_test.go helpers -/

/-- A Go `*big.Int`: the allocation address together with the stored value.
Go `==`/`!=` between two `*big.Int` values compares the addresses; the
`Cmp` method compares the numeric values. -/
structure BigIntPtr where
  addr : ℕ
  val : ℤ
deriving DecidableEq

/-- The fields of `MemberCommitmentsMessage` as used by the test helper
`filterMemberCommitmentsMessages`, with the `*big.Int` sender ID kept as a
pointer. -/
structure MemberCommitmentsMessageGo where
  senderID : BigIntPtr
  commitments : List ℤ
deriving DecidableEq

/-- Embeds `filterMemberCommitmentsMessages` (protocol_test.go lines
198–209): keeps `msg` iff `msg.senderID != receiverID` — a Go pointer
comparison (contrast the sibling `filterPeerSharesMessage`, which compares
IDs with `Cmp`). -/
def filterMemberCommitmentsMessages (messages : List MemberCommitmentsMessageGo)
    (receiverID : BigIntPtr) : List MemberCommitmentsMessageGo :=
  messages.filter (fun msg => msg.senderID.addr ≠ receiverID.addr)

/-- The prime 5, used by the concrete witnesses. -/
instance : Fact (Nat.Prime 5) := ⟨by norm_num⟩

end KeepCore

namespace KeepCore

/-! ## Helper lemmas -/

/-- An element whose q-th power is 1 only sees its exponents mod q. -/
theorem pow_mod_eq_pow {p q : ℕ} {a : ZMod p} (ha : a ^ q = 1) (e : ℕ) :
    a ^ (e % q) = a ^ e := by
  conv_rhs => rw [← Nat.div_add_mod e q]
  rw [pow_add, pow_mul, ha, one_pow, one_mul]

/-- The verification product of a commitment vector collapses to
`g ^ f(j) * h ^ g(j)` where `f`, `g` are the committed polynomials. -/
theorem prodPow_commit {p : ℕ} (g h : ZMod p) (j : ℕ) :
    ∀ (A B : List ℕ), A.length = B.length →
      prodPow (commit g h A B) j = g ^ evalPoly A j * h ^ evalPoly B j := by
  intro A
  induction A with
  | nil =>
    intro B hB
    cases B with
    | nil => simp [commit, prodPow, evalPoly]
    | cons b bs => simp at hB
  | cons a as ih =>
    intro B hB
    cases B with
    | nil => simp at hB
    | cons b bs =>
      simp only [List.length_cons, Nat.succ.injEq] at hB
      simp only [commit, List.zipWith_cons_cons, prodPow, evalPoly, List.foldr]
      rw [show List.zipWith (fun a b => g ^ a * h ^ b) as bs = commit g h as bs from rfl]
      rw [ih bs hB]
      rw [mul_pow, ← pow_mul, ← pow_mul]
      rw [pow_add, pow_add]
      show g ^ a * h ^ b * (g ^ (evalPoly as j * j) * h ^ (evalPoly bs j * j)) =
        g ^ a * g ^ (j * evalPoly as j) * (h ^ b * h ^ (j * evalPoly bs j))
      rw [Nat.mul_comm (evalPoly as j) j, Nat.mul_comm (evalPoly bs j) j]
      ring

/-- Claim C1, counterexample: with p = 11, q = 5, g = 3, h = 9 = 3², the
committed polynomials f = 1, g = 0 give C = commit([1],[0]); the pair
(s,t) = (3,4) passes `verifyShare` at j = 1 even though it does not lie on
the committed polynomials (the honest share is (1,0), which also passes).
Hence "verifyShare passes iff (s,t) lies on the polynomials encoded by C"
is false as stated: Pedersen commitments are only computationally binding. -/
theorem C1_counterexample :
    verifyShare (3 : ZMod 11) 9 1 3 4 (commit (3 : ZMod 11) 9 [1] [0]) = true ∧
    verifyShare (3 : ZMod 11) 9 1 (evaluateShare 5 [1] 1) (evaluateShare 5 [0] 1)
      (commit (3 : ZMod 11) 9 [1] [0]) = true ∧
    ¬(3 = evaluateShare 5 [1] 1 ∧ 4 = evaluateShare 5 [0] 1) := by
  refine ⟨by decide, by decide, by decide⟩

/-- Claim C1 (amended): `verifyShare(j, s, t, C)` returns true iff
g^s · h^t ≡ ∏_k C_k^{j^k} (mod p); moreover if (s,t) lies on the polynomials
encoded by C — that is, s = f(j) mod q and t = g(j) mod q for the committed
coefficient vectors — then `verifyShare` passes.  (The converse direction of
the original claim, that passing implies lying on the committed polynomials,
holds only under discrete-log hardness and is refuted unconditionally by
`C1_counterexample`.) -/
theorem C1_verifyShare_amended {p q : ℕ} (g h : ZMod p)
    (hg : g ^ q = 1) (hh : h ^ q = 1)
    (A B : List ℕ) (hlen : A.length = B.length) (j s t : ℕ) (C : List (ZMod p)) :
    (verifyShare g h j s t C = true ↔ g ^ s * h ^ t = prodPow C j) ∧
    verifyShare g h j (evaluateShare q A j) (evaluateShare q B j)
      (commit g h A B) = true := by
  constructor
  · exact decide_eq_true_iff
  · rw [verifyShare, decide_eq_true_iff]
    rw [prodPow_commit g h j A B hlen]
    rw [evaluateShare, evaluateShare, pow_mod_eq_pow hg, pow_mod_eq_pow hh]

/-- Witness for `C1_verifyShare_amended` at p = 11, q = 5, g = 3, h = 9,
A = [1,2], B = [2,3], j = 2. -/
theorem C1_witness :
    verifyShare (3 : ZMod 11) 9 2 (evaluateShare 5 [1, 2] 2) (evaluateShare 5 [2, 3] 2)
      (commit (3 : ZMod 11) 9 [1, 2] [2, 3]) = true :=
  (C1_verifyShare_amended (3 : ZMod 11) 9 (by decide) (by decide)
    [1, 2] [2, 3] (by decide) 2 0 0 []).2

/-- Multiplicative fold against an accumulator is the accumulator times the
list product. -/
theorem foldl_mul_eq_mul_prod {p : ℕ} :
    ∀ (l : List (ZMod p)) (a : ZMod p), l.foldl (· * ·) a = a * l.prod := by
  intro l
  induction l with
  | nil => intro a; simp
  | cons x xs ih =>
    intro a
    rw [List.foldl_cons, ih (a * x), List.prod_cons, mul_assoc]

/-- Folding shares with a running mod-q reduction equals the plain sum
reduced mod q. -/
theorem foldl_add_mod {q : ℕ} :
    ∀ (l : List ℕ) (a : ℕ), l.foldl (fun acc s => (acc + s) % q) (a % q) = (a + l.sum) % q := by
  intro l
  induction l with
  | nil => intro a; simp
  | cons x xs ih =>
    intro a
    rw [List.foldl_cons, Nat.mod_add_mod, ih (a + x), List.sum_cons]
    rw [Nat.add_assoc]

/-- Claim C2 (confirmed, spec-modelled): in phase 12 the combining step
returns the group public key Y = (∏_{i∈Q'} A_{i,0}) · (∏_{m reconstructed}
y_m) mod p — the member's own A_{i,0} times the remaining qualified peers'
individual public keys times the reconstructed individual public keys — and
member i's final private share equals x_i = ∑_{j∈Q} s_ji mod q. -/
theorem C2_combine {p : ℕ} (q : ℕ) (m : CombiningMemberState p)
    (receivedSharesS : List ℕ) :
    combineGroupPublicKey m =
      (m.individualPublicKey :: m.receivedValidPeerIndividualPublicKeys).prod *
        m.reconstructedIndividualPublicKeys.prod ∧
    memberFinalPrivateShare q receivedSharesS = receivedSharesS.sum % q := by
  constructor
  · rw [combineGroupPublicKey, foldl_mul_eq_mul_prod, foldl_mul_eq_mul_prod,
      List.prod_cons]
  · rw [memberFinalPrivateShare, show (0 : ℕ) = 0 % q from (Nat.zero_mod q).symm,
      foldl_add_mod, Nat.zero_add]

/-- Claim C4 (confirmed, spec-modelled): at the phase-6/7 barrier the run
aborts with InsufficientQualifiedMembers exactly when |Q| < T+1, continues
with Q = {1..N} minus the disqualified members when |Q| ≥ T+1, and no other
abort reason can be produced there — peer misbehavior alone (any
disqualification set keeping |Q| ≥ T+1) never aborts the run. -/
theorem C4_qualify (N T : ℕ) (disqualified : Finset ℕ) :
    (qualifyPhase N T disqualified = .aborted .insufficientQualifiedMembers ↔
      (computeQualifiedSet N disqualified).card < T + 1) ∧
    (T + 1 ≤ (computeQualifiedSet N disqualified).card →
      qualifyPhase N T disqualified = .continued (computeQualifiedSet N disqualified)) ∧
    (∀ r, qualifyPhase N T disqualified = .aborted r →
      r = .insufficientQualifiedMembers) := by
  unfold qualifyPhase
  by_cases hlt : (computeQualifiedSet N disqualified).card < T + 1
  · rw [if_pos hlt]
    refine ⟨⟨fun _ => hlt, fun _ => rfl⟩, fun hle => absurd hlt (by omega), ?_⟩
    intro r hr
    injection hr with h
    exact h.symm
  · rw [if_neg hlt]
    refine ⟨⟨fun hc => PhaseOutcome.noConfusion hc, fun hc => absurd hc hlt⟩,
      fun _ => rfl, fun r hr => PhaseOutcome.noConfusion hr⟩

/-- Witness for `C4_qualify` at N = 5, T = 2, disqualified = {4, 5}:
Q = {1,2,3} has 3 = T+1 members, so the run continues. -/
theorem C4_witness :
    qualifyPhase 5 2 ({4, 5} : Finset ℕ) = .continued (computeQualifiedSet 5 {4, 5}) :=
  (C4_qualify 5 2 {4, 5}).2.1 (by decide)

/-- Claim C6 (confirmed, spec-modelled): accusation adjudication is
deterministic — two honest members adjudicating identical message logs, even
when their internal iteration visits the log in different orders, derive the
same final qualified set Q_final. -/
theorem C6_adjudication_deterministic (N : ℕ) (justified : Accusation → Bool)
    (log₁ log₂ : List Accusation) (hperm : log₁.Perm log₂) :
    finalQualifiedSet N justified log₁ = finalQualifiedSet N justified log₂ := by
  unfold finalQualifiedSet disqualifiedByAdjudication
  rw [List.toFinset_eq_of_perm _ _ (hperm.map (adjudicateAccusation justified))]

/-- Witness for `C6_adjudication_deterministic`: two orderings of the same
two-accusation log yield the same Q_final. -/
theorem C6_witness :
    finalQualifiedSet 5 (fun a => a.accused == 4)
        [⟨2, 4⟩, ⟨3, 5⟩] =
      finalQualifiedSet 5 (fun a => a.accused == 4)
        [⟨3, 5⟩, ⟨2, 4⟩] :=
  C6_adjudication_deterministic 5 (fun a => a.accused == 4)
    [⟨2, 4⟩, ⟨3, 5⟩] [⟨3, 5⟩, ⟨2, 4⟩] (by decide)

/-- Claim C8 (code bug): `indexForNextGroup` never evaluates without a
run-time fault — `var entry *big.Int` leaves `entry` nil and
`entry.SetBytes(request.PreviousEntry())` dereferences the nil pointer on
every input, before the group count is even consulted; the background path of
`GenerateRelayEntryIfEligible` performs the same nil-receiver `SetBytes` on
`previousEntry`.  The claimed fault-free behavior (previous entry mod number
of groups, nil when no groups) is never reached. -/
theorem C8_nil_pointer_fault :
    (∀ (n : Node) (request : Request),
      indexForNextGroup n request = .fault "nil pointer dereference") ∧
    (∀ request : Request,
      generateRelayEntryPreviousEntry request = .fault "nil pointer dereference") :=
  ⟨fun _ _ => rfl, fun _ => rfl⟩

/-- Claim C9 (confirmed): for every `ReconstructingMember` whose
`publicKeySharePoints` vector is non-empty, `individualPublicKey` returns the
zeroth public key share point A_{i,0} without faulting — the index access is
in-bounds under that precondition. -/
theorem C9_individualPublicKey (rm : ReconstructingMember)
    (hne : rm.publicKeySharePoints ≠ []) :
    individualPublicKey rm = .ok rm.publicKeySharePoints.headI ∧
    ∀ msg, individualPublicKey rm ≠ .fault msg := by
  cases hps : rm.publicKeySharePoints with
  | nil => exact absurd hps hne
  | cons x xs =>
    constructor
    · simp [individualPublicKey, hps]
    · intro msg h
      rw [individualPublicKey, hps] at h
      exact GoResult.noConfusion h

/-- Witness for `C9_individualPublicKey` at a member holding share points
[7, 8]. -/
theorem C9_witness :
    individualPublicKey ⟨[7, 8], [], []⟩ = .ok ([7, 8] : List ℤ).headI :=
  (C9_individualPublicKey ⟨[7, 8], [], []⟩ (by simp)).1

/-- Claim C10 (code bug), failing input: `filterMemberCommitmentsMessages`
compares `msg.senderID != receiverID` on `*big.Int` pointers, so a message
whose sender ID is a distinct allocation holding the same numeric value as
the receiver ID is kept, while the claim (matching the sibling
`filterPeerSharesMessage`, which compares with `Cmp`) says every message
whose sender ID equals the receiver ID by numeric value is excluded.  Here
both IDs hold the value 7 but live at addresses 2 and 1. -/
theorem C10_pointer_comparison :
    filterMemberCommitmentsMessages [⟨⟨2, 7⟩, []⟩] ⟨1, 7⟩ = [⟨⟨2, 7⟩, []⟩] ∧
    (⟨2, 7⟩ : BigIntPtr).val = (⟨1, 7⟩ : BigIntPtr).val :=
  ⟨by decide, rfl⟩

/-- Phase-4 processing splits into the ledger of passing packets and the
accusation list of failing packets, in input order. -/
theorem verifyReceived_spec {p : ℕ} (g h : ZMod p) (myID : ℕ)
    (comms : List (MemberCommitmentsMessage p)) :
    ∀ shares : List PeerSharesMessage,
      verifyReceivedSharesAndCommitments g h myID shares comms =
        (shares.filterMap (recordOf g h myID comms),
         (shares.filter
            (fun m => !(sharePasses g h myID comms m))).map (fun m => m.senderID)) := by
  intro shares
  induction shares with
  | nil => rfl
  | cons msg rest ih =>
    have hcons : verifyReceivedSharesAndCommitments g h myID (msg :: rest) comms =
        phase4Step g h myID comms msg
          (verifyReceivedSharesAndCommitments g h myID rest comms) := rfl
    rw [hcons, ih, List.filterMap_cons, List.filter_cons]
    rcases hd : msg.decryptedShares with _ | ⟨s, t⟩ <;>
      rcases hc : lookupCommitments comms msg.senderID with _ | C <;>
        simp only [phase4Step, recordOf, sharePasses, hd, hc, Bool.not_false,
          Bool.not_true, if_true, if_false, List.map_cons]
    by_cases hv : verifyShare g h myID s t C
    · simp [hv]
    · simp [hv]

/-- Claim C3 (confirmed, spec-modelled): in phase-4 verification of received
shares and commitments, the packets that decrypt and verify against the
sender's commitments are exactly the ones whose (s_ji, t_ji) land in the
ledger; a packet whose decryption or verification fails contributes exactly
its sender to the accusation list; and a run with no failing peer produces an
empty accusation set. -/
theorem C3_phase4_outcomes {p : ℕ} (g h : ZMod p) (myID : ℕ)
    (shares : List PeerSharesMessage) (comms : List (MemberCommitmentsMessage p)) :
    (verifyReceivedSharesAndCommitments g h myID shares comms).1 =
      shares.filterMap (recordOf g h myID comms) ∧
    (verifyReceivedSharesAndCommitments g h myID shares comms).2 =
      (shares.filter
        (fun m => !(sharePasses g h myID comms m))).map (fun m => m.senderID) ∧
    ((∀ m ∈ shares, sharePasses g h myID comms m = true) →
      (verifyReceivedSharesAndCommitments g h myID shares comms).2 = []) := by
  have hspec := verifyReceived_spec g h myID comms shares
  refine ⟨by rw [hspec], by rw [hspec], ?_⟩
  intro hall
  rw [hspec]
  have hnil : shares.filter (fun m => !(sharePasses g h myID comms m)) = [] := by
    rw [List.filter_eq_nil_iff]
    intro m hm
    rw [hall m hm]
    decide
  simp [hnil]

/-- Witness for `C3_phase4_outcomes`: one validly shared packet from sender 2
(s, t) = (3, 0) against its commitments over p = 11, q = 5, g = 3, h = 9
yields an empty accusation set. -/
theorem C3_witness :
    (verifyReceivedSharesAndCommitments (3 : ZMod 11) 9 1
      [⟨2, 1, some (3, 0)⟩]
      [⟨2, commit (3 : ZMod 11) 9 [1, 2] [2, 3]⟩]).2 = [] :=
  (C3_phase4_outcomes (3 : ZMod 11) 9 1
      [⟨2, 1, some (3, 0)⟩]
      [⟨2, commit (3 : ZMod 11) 9 [1, 2] [2, 3]⟩]).2.2 (by decide)

/-- Removing one occurring element from a duplicate-free list shortens it by
exactly one. -/
theorem length_filter_ne_of_nodup :
    ∀ (l : List ℕ) (i : ℕ), l.Nodup → i ∈ l →
      (l.filter (fun j => j ≠ i)).length = l.length - 1 := by
  intro l
  induction l with
  | nil => intro i _ hi; cases hi
  | cons a l ih =>
    intro i hnd hi
    rcases List.nodup_cons.mp hnd with ⟨ha, hnd2⟩
    by_cases hai : a = i
    · subst hai
      have hfl : l.filter (fun j => j ≠ a) = l :=
        List.filter_eq_self.mpr
          (fun b hb => decide_eq_true (fun hba : b = a => ha (hba ▸ hb)))
      rw [List.filter_cons, if_neg (by simp), hfl]
      simp
    · have hil : i ∈ l := by
        rcases List.mem_cons.mp hi with h | h
        · exact absurd h.symm hai
        · exact h
      have hlen := ih i hnd2 hil
      have hpos : 0 < l.length := List.length_pos.mpr (List.ne_nil_of_mem hil)
      rw [List.filter_cons, if_pos (decide_eq_true hai)]
      simp only [List.length_cons, hlen]
      omega

/-- Every entry of a commitment vector has the shape g^a · h^b. -/
theorem mem_commit {p : ℕ} (g h : ZMod p) :
    ∀ (A B : List ℕ), ∀ c ∈ commit g h A B, ∃ a b, c = g ^ a * h ^ b := by
  intro A
  induction A with
  | nil => intro B c hc; simp [commit] at hc
  | cons a as ih =>
    intro B c hc
    cases B with
    | nil => simp [commit] at hc
    | cons b bs =>
      rw [commit, List.zipWith_cons_cons] at hc
      rcases List.mem_cons.mp hc with h | h
      · exact ⟨a, b, h⟩
      · exact ih bs c h

/-- Claim C7 (confirmed, spec-modelled): the phase-3 output of a member with
dishonest threshold T contains exactly T+1 commitments, each lying in the
order-q subgroup (its q-th power is 1), and exactly N−1 peer share messages,
each addressed to a distinct other member of the group. -/
theorem C7_sharesAndCommitments {p : ℕ} (g h : ZMod p) (q T N : ℕ)
    (memberIDs : List ℕ) (i : ℕ) (coefA coefB : List ℕ)
    (hA : coefA.length = T + 1) (hB : coefB.length = T + 1)
    (hg : g ^ q = 1) (hh : h ^ q = 1)
    (hnd : memberIDs.Nodup) (hN : memberIDs.length = N) (hi : i ∈ memberIDs) :
    (calculateMembersSharesAndCommitments g h q memberIDs i coefA coefB).2.length
        = T + 1 ∧
    (∀ c ∈ (calculateMembersSharesAndCommitments g h q memberIDs i coefA coefB).2,
      c ^ q = 1) ∧
    (calculateMembersSharesAndCommitments g h q memberIDs i coefA coefB).1.length
        = N - 1 ∧
    (∀ msg ∈ (calculateMembersSharesAndCommitments g h q memberIDs i coefA coefB).1,
      msg.receiverID ∈ memberIDs ∧ msg.receiverID ≠ i) := by
  refine ⟨?_, ?_, ?_, ?_⟩
  · simp [calculateMembersSharesAndCommitments, commit, List.length_zipWith, hA, hB]
  · intro c hc
    rcases mem_commit g h coefA coefB c hc with ⟨a, b, rfl⟩
    rw [mul_pow, ← pow_mul, ← pow_mul, Nat.mul_comm a q, Nat.mul_comm b q,
      pow_mul, pow_mul, hg, hh, one_pow, one_pow, one_mul]
  · simp only [calculateMembersSharesAndCommitments, List.length_map]
    rw [length_filter_ne_of_nodup memberIDs i hnd hi, hN]
  · intro msg hmsg
    simp only [calculateMembersSharesAndCommitments, List.mem_map] at hmsg
    rcases hmsg with ⟨j, hj, rfl⟩
    rcases List.mem_filter.mp hj with ⟨hjmem, hjne⟩
    exact ⟨hjmem, of_decide_eq_true hjne⟩

/-- Witness for `C7_sharesAndCommitments` at p = 11, q = 5, g = 3, h = 9,
T = 1, a three-member group [1, 2, 3] and dealer 1. -/
theorem C7_witness :
    (calculateMembersSharesAndCommitments (3 : ZMod 11) 9 5 [1, 2, 3] 1
        [1, 2] [2, 3]).2.length = 2 ∧
    (calculateMembersSharesAndCommitments (3 : ZMod 11) 9 5 [1, 2, 3] 1
        [1, 2] [2, 3]).1.length = 2 :=
  ⟨(C7_sharesAndCommitments (3 : ZMod 11) 9 5 1 3 [1, 2, 3] 1 [1, 2] [2, 3]
      rfl rfl (by decide) (by decide) (by decide) rfl (by decide)).1,
   (C7_sharesAndCommitments (3 : ZMod 11) 9 5 1 3 [1, 2, 3] 1 [1, 2] [2, 3]
      rfl rfl (by decide) (by decide) (by decide) rfl (by decide)).2.2.1⟩

/-- Casting the natural Horner evaluation into ℤ_q agrees with evaluating the
Horner-built polynomial at the cast point. -/
theorem eval_hornerPoly {q : ℕ} :
    ∀ (coeffs : List ℕ) (j : ℕ),
      ((evalPoly coeffs j : ℕ) : ZMod q) =
        (hornerPoly (coeffs.map (fun c : ℕ => (c : ZMod q)))).eval ((j : ℕ) : ZMod q) := by
  intro coeffs j
  induction coeffs with
  | nil => simp [evalPoly, hornerPoly]
  | cons c cs ih =>
    have h1 : evalPoly (c :: cs) j = c + j * evalPoly cs j := rfl
    have h2 : hornerPoly ((c :: cs).map (fun c : ℕ => (c : ZMod q))) =
        Polynomial.C (c : ZMod q) +
          Polynomial.X * hornerPoly (cs.map (fun c : ℕ => (c : ZMod q))) := rfl
    rw [h1, Nat.cast_add, Nat.cast_mul, ih, h2, Polynomial.eval_add,
      Polynomial.eval_C, Polynomial.eval_mul, Polynomial.eval_X]

/-- The Horner-built polynomial has degree strictly below its coefficient
count. -/
theorem degree_hornerPoly_lt {q : ℕ} :
    ∀ coeffs : List (ZMod q),
      (hornerPoly coeffs).degree < (coeffs.length : WithBot ℕ) := by
  intro coeffs
  induction coeffs with
  | nil =>
    show (0 : Polynomial (ZMod q)).degree < ((0 : ℕ) : WithBot ℕ)
    rw [Polynomial.degree_zero]
    exact WithBot.bot_lt_coe 0
  | cons c cs ih =>
    have h1 : hornerPoly (c :: cs) =
        Polynomial.C c + Polynomial.X * hornerPoly cs := rfl
    simp only [List.length_cons]
    rw [h1]
    apply lt_of_le_of_lt (Polynomial.degree_add_le _ _)
    rw [max_lt_iff]
    constructor
    · apply lt_of_le_of_lt Polynomial.degree_C_le
      exact_mod_cast Nat.succ_pos cs.length
    · apply lt_of_le_of_lt (Polynomial.degree_mul_le _ _)
      apply lt_of_le_of_lt (add_le_add_right Polynomial.degree_X_le _)
      have hcast : ((cs.length + 1 : ℕ) : WithBot ℕ) = 1 + (cs.length : WithBot ℕ) := by
        push_cast
        ring
      rw [hcast]
      exact WithBot.add_lt_add_left (by simp) ih

/-- The spec's Lagrange coefficient λ_k = ∏_{k' ≠ k} k'/(k'−k) is the
evaluation at 0 of the Lagrange basis polynomial at node k. -/
theorem lagrangeCoefficient_eq_eval_basis {q : ℕ} [Fact (Nat.Prime q)]
    (ids : List ℕ) (hnd : ids.Nodup) (k : ℕ) :
    lagrangeCoefficient q ids k =
      (Lagrange.basis ids.toFinset (fun j : ℕ => (j : ZMod q)) k).eval 0 := by
  unfold Lagrange.basis
  rw [Polynomial.eval_prod, lagrangeCoefficient]
  rw [← List.prod_toFinset _ (hnd.filter _)]
  have hto : (ids.filter (fun j => j ≠ k)).toFinset = ids.toFinset.erase k := by
    ext a
    simp only [List.mem_toFinset, List.mem_filter, Finset.mem_erase,
      decide_eq_true_eq]
    exact and_comm
  rw [hto]
  apply Finset.prod_congr rfl
  intro j hj
  rw [Lagrange.basisDivisor, Polynomial.eval_mul, Polynomial.eval_C,
    Polynomial.eval_sub, Polynomial.eval_X, Polynomial.eval_C, zero_sub]
  rw [show ((k : ZMod q) - j) = -((j : ZMod q) - k) from (neg_sub _ _).symm, inv_neg]
  ring

/-- Claim C5 (confirmed, spec-modelled): phase-11 reconstruction — z_m
computed from the revealed shares (k, s_mk = f_m(k) mod q) by the formula
z_m = ∑ λ_k · s_mk mod q with λ_k = ∏_{k'≠k} k'/(k'−k) mod q — recovers
f_m(0) from any T+1 revealed shares at indices distinct mod q (a degree-T
polynomial has T+1 coefficients), and the reconstructed public key is
y_m = g^{z_m} mod p. -/
theorem C5_reconstruct {p : ℕ} (g : ZMod p) (q : ℕ) [Fact (Nat.Prime q)]
    (coeffs ids : List ℕ)
    (hlen : ids.length = coeffs.length)
    (hnd : (ids.map (fun k : ℕ => (k : ZMod q))).Nodup) :
    reconstructIndividualPrivateKey q
        (ids.map fun k => (k, evaluateShare q coeffs k)) =
      ((evalPoly coeffs 0 : ℕ) : ZMod q) ∧
    reconstructIndividualPublicKey g
        (reconstructIndividualPrivateKey q
          (ids.map fun k => (k, evaluateShare q coeffs k))) =
      g ^ (((evalPoly coeffs 0 : ℕ) : ZMod q).val) := by
  have hndids : ids.Nodup := List.Nodup.of_map _ hnd
  have hinj : Set.InjOn (fun j : ℕ => (j : ZMod q)) ids.toFinset := by
    intro x hx y hy hxy
    exact List.inj_on_of_nodup_map hnd (List.mem_toFinset.mp hx)
      (List.mem_toFinset.mp hy) hxy
  have hdeg : (hornerPoly (coeffs.map (fun c : ℕ => (c : ZMod q)))).degree <
      (ids.toFinset.card : WithBot ℕ) := by
    rw [List.toFinset_card_of_nodup hndids, hlen]
    have hd := degree_hornerPoly_lt (coeffs.map (fun c : ℕ => (c : ZMod q)))
    rwa [List.length_map] at hd
  have hinterp := Lagrange.eq_interpolate hinj hdeg
  have hmain : reconstructIndividualPrivateKey q
      (ids.map fun k => (k, evaluateShare q coeffs k)) =
      ((evalPoly coeffs 0 : ℕ) : ZMod q) := by
    rw [reconstructIndividualPrivateKey]
    have hfst : (ids.map fun k => (k, evaluateShare q coeffs k)).map Prod.fst = ids := by
      rw [List.map_map]
      exact List.map_id ids
    rw [hfst, List.map_map]
    have hterm : ∀ k ∈ ids,
        ((fun ks : ℕ × ℕ => lagrangeCoefficient q ids ks.1 * (ks.2 : ZMod q)) ∘
          (fun k => (k, evaluateShare q coeffs k))) k =
        (fun k => (hornerPoly (coeffs.map (fun c : ℕ => (c : ZMod q)))).eval
            ((k : ℕ) : ZMod q) *
          (Lagrange.basis ids.toFinset (fun j : ℕ => (j : ZMod q)) k).eval 0) k := by
      intro k _
      show lagrangeCoefficient q ids k * ((evaluateShare q coeffs k : ℕ) : ZMod q) = _
      rw [evaluateShare, ZMod.natCast_mod, eval_hornerPoly,
        lagrangeCoefficient_eq_eval_basis ids hndids k, mul_comm]
    rw [List.map_congr_left hterm, ← List.sum_toFinset _ hndids]
    rw [eval_hornerPoly coeffs 0, Nat.cast_zero]
    conv_rhs => rw [hinterp]
    rw [Lagrange.interpolate_apply, Polynomial.eval_finset_sum]
    apply Finset.sum_congr rfl
    intro k _
    rw [Polynomial.eval_mul, Polynomial.eval_C]
  refine ⟨hmain, ?_⟩
  rw [reconstructIndividualPublicKey, hmain]

/-- Witness for `C5_reconstruct` over q = 5, p = 11, g = 3: the degree-1
polynomial with coefficients [1, 2] reconstructed from its shares at indices
{1, 2} yields f(0). -/
theorem C5_witness :
    reconstructIndividualPrivateKey 5
        ([1, 2].map fun k => (k, evaluateShare 5 [1, 2] k)) =
      ((evalPoly [1, 2] 0 : ℕ) : ZMod 5) :=
  (C5_reconstruct (3 : ZMod 11) 5 [1, 2] [1, 2] rfl (by decide)).1

end KeepCore
